import Mathlib

/-
Verification of JenkDeHasher (src/JenkDeHasher.py).

The program computes Jenkins one-at-a-time hashes of lower-cased names,
builds a nametable mapping hash tokens to original names, and rewrites
occurrences of tokens matching the regex hash_[0-9A-Fa-f]{8} inside text
files back to the original names.

Modelling conventions:
- Python strings are `List Char` (sequences of Unicode code points).
- Python's `str.lower` and `str.strip` are modelled on the ASCII range
  (upper-case letters A-Z map down by 32; whitespace is the ASCII set),
  which covers every string the program itself produces and compares.
- Python's unbounded integers with `& 0xFFFFFFFF` masking are `Nat` with
  explicit `% 2^32`; `x << n` is `x * 2^n`, `x >> n` is `x / 2^n`.
- A Python dict built by a comprehension is an association list in
  insertion order whose lookup returns the binding of the LAST matching
  key (later insertions overwrite earlier ones).
- `re.sub` with the fixed-length pattern hash_[0-9A-Fa-f]{8} is a
  left-to-right scan: at each position the 13-character pattern either
  matches (replace, resume after the match) or the scan advances one
  character.
-/

/-- Python strings, modelled as lists of code points. -/
abbrev PyStr := List Char

/-- 2^32, the wrap-around modulus of the 32-bit hash accumulator. -/
def M32 : Nat := 4294967296

/-- ASCII fragment of Python `str.lower` applied to one code point
(src line 24, `text.lower()`). -/
def pyLower (c : Char) : Char :=
  if 'A' ≤ c && c ≤ 'Z' then Char.ofNat (c.toNat + 32) else c

/-- One loop iteration of `joaat_hash` (src lines 25-27): add the code
point, add the accumulator shifted left by 10, xor the accumulator
shifted right by 6, masking each assignment to 32 bits. -/
def joaatStep (h : Nat) (c : Char) : Nat :=
  let h1 := (h + c.toNat) % M32
  let h2 := (h1 + h1 * 1024) % M32
  (h2 ^^^ (h2 / 64)) % M32

/-- Final avalanche of `joaat_hash` (src lines 29-31). -/
def joaatFinish (h : Nat) : Nat :=
  let h1 := (h + h * 8) % M32
  let h2 := (h1 ^^^ (h1 / 2048)) % M32
  (h2 + h2 * 32768) % M32

/-- Upper-case hexadecimal digit character for a value below 16,
as produced by Python's `%X` formatting. -/
def hexUpper (d : Nat) : Char :=
  if d < 10 then Char.ofNat (48 + d) else Char.ofNat (55 + d)

/-- Python `f"{v:08X}"` for `v < 2^32`: exactly eight zero-padded
upper-case hexadecimal digits, most significant first. -/
def toHex8 (n : Nat) : PyStr :=
  [ hexUpper (n / 268435456 % 16), hexUpper (n / 16777216 % 16),
    hexUpper (n / 1048576 % 16), hexUpper (n / 65536 % 16),
    hexUpper (n / 4096 % 16), hexUpper (n / 256 % 16),
    hexUpper (n / 16 % 16), hexUpper (n % 16) ]

/-- Embedding of `joaat_hash` (src lines 17-33): lower-case the text,
run the Jenkins one-at-a-time loop from accumulator 0, apply the final
avalanche, and render as the literal prefix hash_ followed by eight
zero-padded upper-case hexadecimal digits.  The `lru_cache` decorator
only memoizes this pure function and has no semantic content. -/
def joaat_hash (text : PyStr) : PyStr :=
  "hash_".data ++ toHex8 (joaatFinish ((text.map pyLower).foldl joaatStep 0))

/-- Modelled from the spec: one per-code-point step of the Jenkins
one-at-a-time hash as the spec words it — add the code point, add the
accumulator shifted left by 10, xor the accumulator shifted right by 6,
masking to 32 bits after every operation (every shift, add and xor). -/
def specJenkinsStep (acc : Nat) (c : Nat) : Nat :=
  let a1 := (acc + c) % 2 ^ 32
  let a2 := (a1 + (a1 * 2 ^ 10) % 2 ^ 32) % 2 ^ 32
  (a2 ^^^ ((a2 / 2 ^ 6) % 2 ^ 32)) % 2 ^ 32

/-- Modelled from the spec: the loop over the code points in order. -/
def specJenkinsRun : Nat → List Nat → Nat
  | acc, [] => acc
  | acc, c :: cs => specJenkinsRun (specJenkinsStep acc c) cs

/-- Modelled from the spec: the finalization — add accumulator shifted
left by 3, xor accumulator shifted right by 11, add accumulator shifted
left by 15, each masked to 32 bits. -/
def specJenkinsFinal (acc : Nat) : Nat :=
  let a1 := (acc + (acc * 2 ^ 3) % 2 ^ 32) % 2 ^ 32
  let a2 := (a1 ^^^ ((a1 / 2 ^ 11) % 2 ^ 32)) % 2 ^ 32
  (a2 + (a2 * 2 ^ 15) % 2 ^ 32) % 2 ^ 32

/-- Modelled from the spec: an upper-case hexadecimal digit. -/
def specHexDigit (d : Nat) : Char :=
  "0123456789ABCDEF".data.getD d '?'

/-- Modelled from the spec: the accumulator rendered as exactly eight
zero-padded upper-case hexadecimal digits, most significant first. -/
def specHex8 (n : Nat) : PyStr :=
  (List.range 8).map (fun i => specHexDigit (n / 16 ^ (7 - i) % 16))

/-- Modelled from the spec: the whole hash contract of claim C1 — the
Jenkins one-at-a-time hash of the lower-cased input, rendered as the
literal prefix hash_ followed by eight zero-padded upper-case
hexadecimal digits. -/
def specHash (s : PyStr) : PyStr :=
  "hash_".data ++
    specHex8 (specJenkinsFinal
      (specJenkinsRun 0 ((s.map pyLower).map Char.toNat)))

/-- Character class [0-9A-Fa-f] of the compiled pattern (src line 38):
a hexadecimal digit, matched case-insensitively. -/
def isHexDigit (c : Char) : Bool :=
  ('0' ≤ c && c ≤ '9') || ('A' ≤ c && c ≤ 'F') || ('a' ≤ c && c ≤ 'f')

/-- Does the string start with a match of the compiled regex
hash_[0-9A-Fa-f]{8} (src line 38)?  The pattern is fixed-length 13: the
literal lower-case prefix hash_ followed by exactly eight hexadecimal
digits. -/
def tokenAt (cs : PyStr) : Bool :=
  (cs.take 5 == "hash_".data) && decide (13 ≤ cs.length) &&
    ((cs.drop 5).take 8).all isHexDigit

/-- Python dict lookup on an insertion-ordered association list: the
binding of the LAST matching key wins (later insertions overwrite
earlier ones, as in the dict comprehension of src lines 44-48), `none`
when the key is absent. -/
def pyGet (tbl : List (PyStr × PyStr)) (key : PyStr) : Option PyStr :=
  match tbl with
  | [] => none
  | (k, v) :: rest =>
      match pyGet rest key with
      | some w => some w
      | none => if k = key then some v else none

/-- Embedding of `re.sub` (src lines 61-64) with the fixed-length
pattern, parameterized by fuel to keep the recursion structural: scan
left to right; where the 13-character pattern matches, emit
`nametable.get(m.group(0), m.group(0))` and resume after the match;
otherwise keep one character and advance.  Fuel at least the length of
the string is always enough, since every step consumes at least one
character. -/
def pySubFuel (tbl : List (PyStr × PyStr)) : Nat → PyStr → PyStr
  | 0, cs => cs
  | _ + 1, [] => []
  | fuel + 1, c :: rest =>
      if tokenAt (c :: rest) then
        (pyGet tbl ((c :: rest).take 13)).getD ((c :: rest).take 13) ++
          pySubFuel tbl fuel ((c :: rest).drop 13)
      else
        c :: pySubFuel tbl fuel rest

/-- The substitution of src lines 61-64:
`hash_pattern.sub(lambda m: self.nametable.get(m.group(0), m.group(0)), content)`. -/
def pySub (tbl : List (PyStr × PyStr)) (content : PyStr) : PyStr :=
  pySubFuel tbl content.length content

/-- Embedding of src lines 61-67: the substituted content together with
the boolean `new_content != content` that decides whether the file is
written back. -/
def substApply (tbl : List (PyStr × PyStr)) (content : PyStr) :
    PyStr × Bool :=
  (pySub tbl content, pySub tbl content != content)

/-- A piece of the spec-side decomposition of a content string: either a
literal character outside every match, or one non-overlapping match of
the token pattern. -/
inductive Piece where
  | lit : Char → Piece
  | tok : PyStr → Piece
deriving DecidableEq

/-- Modelled from the spec: decompose a content string into literal
characters and the non-overlapping, left-to-right matches of the token
pattern (fuel-parameterized like `pySubFuel`). -/
def tokenizeFuel : Nat → PyStr → List Piece
  | 0, _ => []
  | _ + 1, [] => []
  | fuel + 1, c :: rest =>
      if tokenAt (c :: rest) then
        Piece.tok ((c :: rest).take 13) :: tokenizeFuel fuel ((c :: rest).drop 13)
      else
        Piece.lit c :: tokenizeFuel fuel rest

/-- Modelled from the spec: the decomposition of a content string into
literals and matches. -/
def tokenize (content : PyStr) : List Piece :=
  tokenizeFuel content.length content

/-- Modelled from the spec: what the substitution does to one piece —
a literal character is kept, a matched token is replaced by the table's
value when the token is a key and kept verbatim otherwise. -/
def renderPiece (tbl : List (PyStr × PyStr)) : Piece → PyStr
  | Piece.lit c => [c]
  | Piece.tok t => (pyGet tbl t).getD t

/-- Modelled from the spec: the substitution as a whole, over the
decomposition. -/
def render (tbl : List (PyStr × PyStr)) (ps : List Piece) : PyStr :=
  (ps.map (renderPiece tbl)).flatten

/-- Forgetting the decomposition: concatenating the pieces back. -/
def flat (ps : List Piece) : PyStr :=
  (ps.map (fun p => match p with | Piece.lit c => [c] | Piece.tok t => t)).flatten

/-- Is there a match of the token pattern anywhere in the string? -/
def hasToken : PyStr → Bool
  | [] => false
  | c :: rest => tokenAt (c :: rest) || hasToken rest

/-- ASCII fragment of Python's default `str.strip()` whitespace class:
space, tab, newline, vertical tab, form feed, carriage return. -/
def isPySpace (c : Char) : Bool :=
  c == ' ' || c == '\t' || c == '\n' || c == '\r' ||
    c.toNat == 11 || c.toNat == 12

/-- ASCII fragment of Python `str.strip()` as used in src lines 45-47:
remove leading and trailing whitespace. -/
def pyStrip (s : PyStr) : PyStr :=
  ((s.dropWhile isPySpace).reverse.dropWhile isPySpace).reverse

/-- Embedding of `load_nametable` (src lines 40-48): the dict
comprehension in file-line order — skip lines that are blank after
stripping, and for each remaining line insert the binding
joaat_hash(line.strip()) -> line.strip().  Represented as the
insertion-ordered association list read by `pyGet` (last binding of a
key wins, as later dict insertions overwrite earlier ones). -/
def load_nametable (lines : List PyStr) : List (PyStr × PyStr) :=
  (lines.filter (fun l => pyStrip l != [])).map
    (fun l => (joaat_hash (pyStrip l), pyStrip l))

/-- Modelled from the spec: the winning entry for a token — among the
stripped, non-blank source lines, the LAST one in iteration order whose
hash is the token (later lines silently overwrite earlier ones). -/
def lastWinner (lines : List PyStr) (tok : PyStr) : Option PyStr :=
  ((lines.map pyStrip).filter
    (fun s => (s != []) && (joaat_hash s == tok))).getLast?

/-- Per-file outcome, as logged per file by process_xml_file
(src lines 70, 72, 75): file rewritten, no changes needed, or an
exception while reading or writing. -/
inductive Outcome where
  | written : Outcome
  | skipped : Outcome
  | failed : Outcome
deriving DecidableEq

/-- Embedding of `process_xml_file` (src lines 54-76) against an
abstract one-file disk state: `none` means the read raises (for example
the path does not exist), `some content` a successful read.  Returns
the per-file outcome together with the file's on-disk content
afterwards; the file is rewritten in place only when the substituted
content differs from what was read (src lines 66-72). -/
def process_xml_file (tbl : List (PyStr × PyStr)) :
    Option PyStr → Outcome × Option PyStr
  | none => (Outcome.failed, none)
  | some content =>
      if pySub tbl content != content then
        (Outcome.written, some (pySub tbl content))
      else
        (Outcome.skipped, some content)

/-- Embedding of `process_files` (src lines 78-81),
`list(executor.map(self.process_xml_file, xml_files))`.  `Executor.map`
submits one future per file eagerly; the pool's workers start the
queued tasks in submission order.  When no task raises, `list`
consumes every result and each file is processed.  When some task
raises (a file in state `none` makes `process_xml_file` re-raise, src
line 76), consuming that future re-raises into `list(...)` and the
result iterator's cleanup then cancels every future the pool has not
yet started; a cancelled work item never runs, so its file is never
read, written or logged.  `started` is the scheduling-dependent number
of tasks the pool had started by then (in reality at least the index
of the failing task plus one, since that task completed); a task that
ran has `some` outcome, a cancelled task has `none`. -/
def process_files (tbl : List (PyStr × PyStr))
    (files : List (Option PyStr)) (started : Nat) :
    List (Option (Outcome × Option PyStr)) :=
  match files.findIdx? (fun f => f.isNone) with
  | none => files.map (fun f => some (process_xml_file tbl f))
  | some _ =>
      files.enum.map (fun p =>
        if p.1 < started then some (process_xml_file tbl p.2) else none)

/-- Embedding of the run skeleton of `main` (src lines 112-114): load
the nametable, then process the files.  When loading raises
(src lines 50-52 log and re-raise) the exception propagates out of
`load_nametable` before `process_files` is reached, so no file is
touched: `none` models the aborted run. -/
def runJenkDeHasher (src : Option (List PyStr))
    (files : List (Option PyStr)) (started : Nat) :
    Option (List (Option (Outcome × Option PyStr))) :=
  match src with
  | none => none
  | some lines => some (process_files (load_nametable lines) files started)

theorem specJenkinsStep_eq_joaatStep (h : Nat) (c : Char) :
    specJenkinsStep h c.toNat = joaatStep h c := by
  have e32 : (2 : Nat) ^ 32 = M32 := by norm_num [M32]
  have e10 : (2 : Nat) ^ 10 = 1024 := by norm_num
  have e6 : (2 : Nat) ^ 6 = 64 := by norm_num
  simp only [specJenkinsStep, joaatStep, e32, e10, e6, Nat.add_mod_mod]
  have hlt : ((h + c.toNat) % M32 + (h + c.toNat) % M32 * 1024) % M32 / 64 < M32 := by
    have hm : ((h + c.toNat) % M32 + (h + c.toNat) % M32 * 1024) % M32 < M32 :=
      Nat.mod_lt _ (by norm_num [M32])
    exact Nat.lt_of_le_of_lt (Nat.div_le_self _ _) hm
  rw [Nat.mod_eq_of_lt hlt]

theorem specJenkinsRun_eq_foldl (cs : List Char) (h : Nat) :
    specJenkinsRun h (cs.map Char.toNat) = cs.foldl joaatStep h := by
  induction cs generalizing h with
  | nil => rfl
  | cons c cs ih =>
      simp only [List.map_cons, specJenkinsRun, List.foldl_cons,
        specJenkinsStep_eq_joaatStep, ih]

theorem specJenkinsFinal_eq_joaatFinish (h : Nat) :
    specJenkinsFinal h = joaatFinish h := by
  have e32 : (2 : Nat) ^ 32 = M32 := by norm_num [M32]
  have e3 : (2 : Nat) ^ 3 = 8 := by norm_num
  have e11 : (2 : Nat) ^ 11 = 2048 := by norm_num
  have e15 : (2 : Nat) ^ 15 = 32768 := by norm_num
  simp only [specJenkinsFinal, joaatFinish, e32, e3, e11, e15, Nat.add_mod_mod]
  have hlt : (h + h * 8) % M32 / 2048 < M32 := by
    have hm : (h + h * 8) % M32 < M32 := Nat.mod_lt _ (by norm_num [M32])
    exact Nat.lt_of_le_of_lt (Nat.div_le_self _ _) hm
  rw [Nat.mod_eq_of_lt hlt]

theorem specHexDigit_eq_hexUpper : ∀ d, d < 16 → specHexDigit d = hexUpper d := by
  decide

theorem specHex8_eq_toHex8 (n : Nat) : specHex8 n = toHex8 n := by
  have hr : List.range 8 = [0, 1, 2, 3, 4, 5, 6, 7] := rfl
  simp only [specHex8, hr, List.map_cons, List.map_nil, toHex8]
  norm_num
  refine ⟨?_, ?_, ?_, ?_, ?_, ?_, ?_, ?_⟩ <;>
    exact specHexDigit_eq_hexUpper _ (Nat.mod_lt _ (by norm_num))

/-- C1: for every input string s, `joaat_hash s` equals the Jenkins
one-at-a-time hash of the lower-cased s as the spec describes it —
accumulator from 0, per code point add the code point, add acc shifted
left by 10, xor acc shifted right by 6, masked to 32 bits after every
operation; then add acc shifted left by 3, xor acc shifted right by 11,
add acc shifted left by 15, each masked; rendered as the literal prefix
hash_ followed by exactly eight zero-padded upper-case hexadecimal
digits.  In particular two strings differing only in letter case (equal
after per-character lower-casing) hash to the same token. -/
theorem C1_hash_matches_spec :
    (∀ s : PyStr, joaat_hash s = specHash s) ∧
    (∀ s t : PyStr, s.map pyLower = t.map pyLower →
      joaat_hash s = joaat_hash t) := by
  constructor
  · intro s
    simp only [joaat_hash, specHash, specJenkinsRun_eq_foldl,
      specJenkinsFinal_eq_joaatFinish, specHex8_eq_toHex8]
  · intro s t h
    simp only [joaat_hash, h]

theorem C1_hash_matches_spec_witness :
    joaat_hash "Player".data = joaat_hash "pLaYeR".data :=
  C1_hash_matches_spec.2 "Player".data "pLaYeR".data (by decide)

theorem tokenAt_iff (cs : PyStr) :
    tokenAt cs = true ↔
      cs.take 5 = "hash_".data ∧ 13 ≤ cs.length ∧
        ((cs.drop 5).take 8).all isHexDigit = true := by
  simp [tokenAt, and_assoc]

theorem tokenAt_length {cs : PyStr} (h : tokenAt cs = true) : 13 ≤ cs.length :=
  ((tokenAt_iff cs).1 h).2.1

theorem tokenAt_take13 {cs : PyStr} (h : tokenAt cs = true) :
    tokenAt (cs.take 13) = true := by
  rcases (tokenAt_iff cs).1 h with ⟨h5, hlen, hhex⟩
  refine (tokenAt_iff _).2 ⟨?_, ?_, ?_⟩
  · rw [List.take_take]; simpa using h5
  · simpa [List.length_take] using hlen
  · rw [List.drop_take, List.take_take]
    simpa using hhex

theorem tokenAt_take13_length {cs : PyStr} (h : tokenAt cs = true) :
    (cs.take 13).length = 13 := by
  simp [List.length_take, Nat.min_eq_left (tokenAt_length h)]

theorem pySubFuel_fuel_irrelevant (tbl : List (PyStr × PyStr)) :
    ∀ f g cs, cs.length ≤ f → cs.length ≤ g →
      pySubFuel tbl f cs = pySubFuel tbl g cs := by
  intro f
  induction f with
  | zero =>
      intro g cs hf _
      have : cs = [] := List.eq_nil_of_length_eq_zero (Nat.le_zero.1 hf)
      subst this
      cases g <;> rfl
  | succ f ih =>
      intro g cs hf hg
      match cs, g with
      | [], 0 => rfl
      | [], g + 1 => rfl
      | c :: rest, g + 1 =>
          cases ht : tokenAt (c :: rest) with
          | true =>
              simp only [pySubFuel, ht, if_true]
              congr 1
              exact ih g ((c :: rest).drop 13)
                (by simp only [List.length_drop, List.length_cons] at *; omega)
                (by simp only [List.length_drop, List.length_cons] at *; omega)
          | false =>
              simp only [pySubFuel, ht, Bool.false_eq_true, if_false]
              congr 1
              exact ih g rest
                (by simp only [List.length_cons] at hf; omega)
                (by simp only [List.length_cons] at hg; omega)

theorem pySubFuel_eq_pySub (tbl : List (PyStr × PyStr)) {f : Nat} {cs : PyStr}
    (h : cs.length ≤ f) : pySubFuel tbl f cs = pySub tbl cs :=
  pySubFuel_fuel_irrelevant tbl f cs.length cs h (Nat.le_refl _)

theorem pySub_nil (tbl : List (PyStr × PyStr)) : pySub tbl [] = [] := rfl

theorem pySub_cons_tok (tbl : List (PyStr × PyStr)) (c : Char) (rest : PyStr)
    (h : tokenAt (c :: rest) = true) :
    pySub tbl (c :: rest) =
      (pyGet tbl ((c :: rest).take 13)).getD ((c :: rest).take 13) ++
        pySub tbl ((c :: rest).drop 13) := by
  show pySubFuel tbl (rest.length + 1) (c :: rest) = _
  simp only [pySubFuel, h, if_true]
  congr 1
  exact pySubFuel_eq_pySub tbl
    (by simp only [List.length_drop, List.length_cons]; omega)

theorem pySub_cons_lit (tbl : List (PyStr × PyStr)) (c : Char) (rest : PyStr)
    (h : tokenAt (c :: rest) = false) :
    pySub tbl (c :: rest) = c :: pySub tbl rest := by
  show pySubFuel tbl (rest.length + 1) (c :: rest) = _
  simp only [pySubFuel, h, Bool.false_eq_true, if_false]
  rfl

theorem flat_cons_lit (c : Char) (ps : List Piece) :
    flat (Piece.lit c :: ps) = c :: flat ps := rfl

theorem flat_cons_tok (t : PyStr) (ps : List Piece) :
    flat (Piece.tok t :: ps) = t ++ flat ps := rfl

theorem render_cons (tbl : List (PyStr × PyStr)) (p : Piece) (ps : List Piece) :
    render tbl (p :: ps) = renderPiece tbl p ++ render tbl ps := rfl

theorem flat_tokenizeFuel :
    ∀ f (cs : PyStr), cs.length ≤ f → flat (tokenizeFuel f cs) = cs := by
  intro f
  induction f with
  | zero =>
      intro cs hf
      have : cs = [] := List.eq_nil_of_length_eq_zero (Nat.le_zero.1 hf)
      subst this
      rfl
  | succ f ih =>
      intro cs hf
      match cs with
      | [] => rfl
      | c :: rest =>
          cases ht : tokenAt (c :: rest) with
          | true =>
              simp only [tokenizeFuel, ht, if_true, flat_cons_tok]
              rw [ih ((c :: rest).drop 13)
                (by simp only [List.length_drop, List.length_cons] at *; omega)]
              exact List.take_append_drop 13 (c :: rest)
          | false =>
              simp only [tokenizeFuel, ht, Bool.false_eq_true, if_false,
                flat_cons_lit]
              rw [ih rest (by simp only [List.length_cons] at hf; omega)]

theorem flat_tokenize (cs : PyStr) : flat (tokenize cs) = cs :=
  flat_tokenizeFuel cs.length cs (Nat.le_refl _)

theorem pySubFuel_eq_renderFuel (tbl : List (PyStr × PyStr)) :
    ∀ f (cs : PyStr), cs.length ≤ f →
      pySubFuel tbl f cs = render tbl (tokenizeFuel f cs) := by
  intro f
  induction f with
  | zero =>
      intro cs hf
      have : cs = [] := List.eq_nil_of_length_eq_zero (Nat.le_zero.1 hf)
      subst this
      rfl
  | succ f ih =>
      intro cs hf
      match cs with
      | [] => rfl
      | c :: rest =>
          cases ht : tokenAt (c :: rest) with
          | true =>
              simp only [pySubFuel, tokenizeFuel, ht, if_true, render_cons,
                renderPiece]
              rw [ih ((c :: rest).drop 13)
                (by simp only [List.length_drop, List.length_cons] at *; omega)]
          | false =>
              simp only [pySubFuel, tokenizeFuel, ht, Bool.false_eq_true,
                if_false, render_cons, renderPiece]
              rw [ih rest (by simp only [List.length_cons] at hf; omega)]
              rfl

theorem pySub_eq_render (tbl : List (PyStr × PyStr)) (cs : PyStr) :
    pySub tbl cs = render tbl (tokenize cs) :=
  pySubFuel_eq_renderFuel tbl cs.length cs (Nat.le_refl _)

theorem tokenizeFuel_tok_mem :
    ∀ f (cs : PyStr) (t : PyStr), Piece.tok t ∈ tokenizeFuel f cs →
      tokenAt t = true ∧ t.length = 13 := by
  intro f
  induction f with
  | zero =>
      intro cs t h
      simp [tokenizeFuel] at h
  | succ f ih =>
      intro cs t h
      match cs with
      | [] => simp [tokenizeFuel] at h
      | c :: rest =>
          cases ht : tokenAt (c :: rest) with
          | true =>
              simp only [tokenizeFuel, ht, if_true, List.mem_cons] at h
              rcases h with h | h
              · rcases h with h
                rw [Piece.tok.injEq] at h
                subst h
                exact ⟨tokenAt_take13 ht, tokenAt_take13_length ht⟩
              · exact ih _ t h
          | false =>
              simp only [tokenizeFuel, ht, Bool.false_eq_true, if_false,
                List.mem_cons] at h
              rcases h with h | h
              · exact absurd h (by simp)
              · exact ih _ t h

theorem tokenize_tok_mem (cs t : PyStr) (h : Piece.tok t ∈ tokenize cs) :
    tokenAt t = true ∧ t.length = 13 :=
  tokenizeFuel_tok_mem cs.length cs t h

theorem pySubFuel_no_token (tbl : List (PyStr × PyStr)) :
    ∀ f (cs : PyStr), cs.length ≤ f → hasToken cs = false →
      pySubFuel tbl f cs = cs := by
  intro f
  induction f with
  | zero =>
      intro cs hf _
      have : cs = [] := List.eq_nil_of_length_eq_zero (Nat.le_zero.1 hf)
      subst this
      rfl
  | succ f ih =>
      intro cs hf hn
      match cs with
      | [] => rfl
      | c :: rest =>
          simp only [hasToken, Bool.or_eq_false_iff] at hn
          simp only [pySubFuel, hn.1, Bool.false_eq_true, if_false]
          rw [ih rest (by simp only [List.length_cons] at hf; omega) hn.2]

theorem pySub_no_token (tbl : List (PyStr × PyStr)) (cs : PyStr)
    (h : hasToken cs = false) : pySub tbl cs = cs :=
  pySubFuel_no_token tbl cs.length cs (Nat.le_refl _) h

/-- C2: for every content string and table, the substitution (a) equals
the rendering of the left-to-right, non-overlapping decomposition of the
content into literal characters and pattern matches, where a matched
token that is a key of the table is replaced by the table's value and a
match absent from the table is kept verbatim; (b) the decomposition
loses no text (non-matching text is unchanged); (c) every matched token
is a genuine match of the pattern, hex digits case-insensitive; and
(d) changed is reported exactly when the resulting string differs from
the input. -/
theorem C2_substitution_contract :
    (∀ tbl content, pySub tbl content = render tbl (tokenize content)) ∧
    (∀ content : PyStr, flat (tokenize content) = content) ∧
    (∀ content t, Piece.tok t ∈ tokenize content → tokenAt t = true) ∧
    (∀ tbl t, renderPiece tbl (Piece.tok t) = (pyGet tbl t).getD t) ∧
    (∀ tbl content, (substApply tbl content).2 = true ↔
      (substApply tbl content).1 ≠ content) := by
  refine ⟨pySub_eq_render, flat_tokenize, ?_, fun _ _ => rfl, ?_⟩
  · intro content t h
    exact (tokenize_tok_mem content t h).1
  · intro tbl content
    simp only [substApply, bne_iff_ne]

theorem C2_substitution_contract_witness :
    tokenAt "hash_1a2B3c4D".data = true :=
  C2_substitution_contract.2.2.1 "x hash_1a2B3c4D y".data
    "hash_1a2B3c4D".data (by decide)

theorem getLast?_cons_alt {α : Type} (x : α) (xs : List α) :
    (x :: xs).getLast? = some (xs.getLast?.getD x) := by
  cases xs with
  | nil => rfl
  | cons y ys =>
      rw [List.getLast?_cons_cons]
      cases h : (y :: ys).getLast? with
      | none => exact absurd (List.getLast?_eq_none_iff.1 h) (by simp)
      | some z => rfl

theorem load_nametable_lookup (lines : List PyStr) (tok : PyStr) :
    pyGet (load_nametable lines) tok = lastWinner lines tok := by
  induction lines with
  | nil => rfl
  | cons l ls ih =>
      by_cases hb : pyStrip l = []
      · have h1 : load_nametable (l :: ls) = load_nametable ls := by
          simp [load_nametable, List.filter_cons, hb]
        have h2 : lastWinner (l :: ls) tok = lastWinner ls tok := by
          simp [lastWinner, List.filter_cons, hb]
        rw [h1, h2]
        exact ih
      · have h1 : load_nametable (l :: ls) =
            (joaat_hash (pyStrip l), pyStrip l) :: load_nametable ls := by
          simp [load_nametable, List.filter_cons, hb]
        rw [h1]
        simp only [pyGet]
        rw [ih]
        by_cases hk : joaat_hash (pyStrip l) = tok
        · have hc : ((pyStrip l != []) &&
              (joaat_hash (pyStrip l) == tok)) = true := by
            simp [hb, hk]
          have h2 : lastWinner (l :: ls) tok =
              some ((lastWinner ls tok).getD (pyStrip l)) := by
            simp only [lastWinner, List.map_cons, List.filter_cons, hc,
              if_true]
            exact getLast?_cons_alt _ _
          rw [h2]
          cases lastWinner ls tok with
          | none => simp [hk]
          | some w => simp
        · have hc : ((pyStrip l != []) &&
              (joaat_hash (pyStrip l) == tok)) = false := by
            simp [hk]
          have h2 : lastWinner (l :: ls) tok = lastWinner ls tok := by
            simp only [lastWinner, List.map_cons, List.filter_cons, hc,
              Bool.false_eq_true, if_false]
          rw [h2]
          cases lastWinner ls tok with
          | none => simp [hk]
          | some w => simp

theorem lastWinner_isSome_of_mem (lines : List PyStr) (l : PyStr)
    (hm : l ∈ lines) (hb : pyStrip l ≠ []) :
    (lastWinner lines (joaat_hash (pyStrip l))).isSome = true := by
  have hmem : pyStrip l ∈ (lines.map pyStrip).filter
      (fun s => (s != []) && (joaat_hash s == joaat_hash (pyStrip l))) := by
    refine List.mem_filter.2 ⟨List.mem_map.2 ⟨l, hm, rfl⟩, ?_⟩
    simp [hb]
  have hne : (lines.map pyStrip).filter
      (fun s => (s != []) && (joaat_hash s == joaat_hash (pyStrip l))) ≠ [] :=
    List.ne_nil_of_mem hmem
  unfold lastWinner
  cases hlast : ((lines.map pyStrip).filter
      (fun s => (s != []) && (joaat_hash s == joaat_hash (pyStrip l)))).getLast? with
  | none => exact absurd (List.getLast?_eq_none_iff.1 hlast) hne
  | some w => rfl

/-- C3: the table built by load_nametable, read through the dict
lookup, maps a token to exactly the LAST line in file order whose
stripped form is non-blank and hashes to that token (last-line-wins on
collision) and to nothing otherwise; every non-blank line's hash token
is present; and lines blank after stripping contribute no entry, so the
table built from the sources with blank lines removed is the same
table. -/
theorem C3_nametable_construction :
    (∀ (lines : List PyStr) (tok : PyStr),
      pyGet (load_nametable lines) tok = lastWinner lines tok) ∧
    (∀ (lines : List PyStr) (l : PyStr), l ∈ lines → pyStrip l ≠ [] →
      (pyGet (load_nametable lines) (joaat_hash (pyStrip l))).isSome = true) ∧
    (∀ lines : List PyStr,
      load_nametable (lines.filter (fun l => pyStrip l != [])) =
        load_nametable lines) := by
  refine ⟨load_nametable_lookup, ?_, ?_⟩
  · intro lines l hm hb
    rw [load_nametable_lookup]
    exact lastWinner_isSome_of_mem lines l hm hb
  · intro lines
    simp [load_nametable, List.filter_filter]

theorem C3_nametable_construction_witness :
    (pyGet (load_nametable ["  Vehicle  ".data])
      (joaat_hash (pyStrip "  Vehicle  ".data))).isSome = true :=
  C3_nametable_construction.2.1 ["  Vehicle  ".data] "  Vehicle  ".data
    (by decide) (by decide)

theorem isHexDigit_hexUpper : ∀ d, d < 16 → isHexDigit (hexUpper d) = true := by
  decide

theorem toHex8_all_hex (v : Nat) : (toHex8 v).all isHexDigit = true := by
  have hone : ∀ m : Nat, isHexDigit (hexUpper (m % 16)) = true :=
    fun m => isHexDigit_hexUpper _ (Nat.mod_lt _ (by norm_num))
  simp [toHex8, hone]

theorem joaat_hash_length (T : PyStr) : (joaat_hash T).length = 13 := rfl

theorem tokenAt_joaat (T : PyStr) : tokenAt (joaat_hash T) = true := by
  refine (tokenAt_iff _).2 ⟨?_, ?_, ?_⟩
  · rfl
  · rw [joaat_hash_length]
  · show (toHex8 (joaatFinish ((T.map pyLower).foldl joaatStep 0))).all
      isHexDigit = true
    exact toHex8_all_hex _

theorem pySub_single_token (tbl : List (PyStr × PyStr)) (cs : PyStr)
    (h : tokenAt cs = true) (hl : cs.length = 13) :
    pySub tbl cs = (pyGet tbl cs).getD cs := by
  cases cs with
  | nil => simp at hl
  | cons c rest =>
      rw [pySub_cons_tok tbl c rest h]
      have ht : (c :: rest).take 13 = c :: rest :=
        List.take_of_length_le (by omega)
      have hd : (c :: rest).drop 13 = [] :=
        List.drop_eq_nil_of_le (by omega)
      rw [ht, hd, pySub_nil, List.append_nil]

/-- C4 is false as stated: the token hash_5347A605 is a fixed point of
the hash (joaat_hash "hash_5347A605" = "hash_5347A605").  With the
single-line source list ["hash_5347A605"] the line is non-blank and its
entry is the winning entry, and the content consisting of exactly its
hash token is indeed replaced by the line — but the replacement equals
the content, so changed is false where the claim demands true. -/
theorem C4_counterexample :
    substApply (load_nametable ["hash_5347A605".data])
        (joaat_hash "hash_5347A605".data) ≠
      ("hash_5347A605".data, true) := by
  decide

/-- C4 (amended): for every source list and every stripped line T that
is the winning entry for its hash token, substituting a content string
consisting of exactly joaat_hash T yields exactly T, and changed is
true if and only if T differs from its own hash token (self-hashing
tokens such as hash_5347A605 exist, and for a line with surrounding
whitespace the table holds — and the round trip returns — its stripped
form). -/
theorem C4_roundtrip :
    ∀ (lines : List PyStr) (T : PyStr),
      lastWinner lines (joaat_hash T) = some T →
      pySub (load_nametable lines) (joaat_hash T) = T ∧
      ((substApply (load_nametable lines) (joaat_hash T)).2 = true ↔
        T ≠ joaat_hash T) := by
  intro lines T hw
  have hkey : pyGet (load_nametable lines) (joaat_hash T) = some T := by
    rw [load_nametable_lookup]
    exact hw
  have hsub : pySub (load_nametable lines) (joaat_hash T) = T := by
    rw [pySub_single_token _ _ (tokenAt_joaat T) (joaat_hash_length T), hkey]
    rfl
  refine ⟨hsub, ?_⟩
  show (pySub (load_nametable lines) (joaat_hash T) != joaat_hash T) = true ↔
    T ≠ joaat_hash T
  rw [hsub]
  exact bne_iff_ne

theorem C4_roundtrip_witness :
    pySub (load_nametable ["Player".data]) (joaat_hash "Player".data) =
        "Player".data ∧
      ((substApply (load_nametable ["Player".data])
          (joaat_hash "Player".data)).2 = true ↔
        "Player".data ≠ joaat_hash "Player".data) :=
  C4_roundtrip ["Player".data] "Player".data (by decide)

/-- C6 is false as stated for the "more than 8 digits" case: an
occurrence of hash_ followed by NINE hexadecimal digits deviates from
the token grammar, yet it is not left byte-for-byte unchanged — the
regex matches its first thirteen characters.  With the table mapping
hash_00000000 to N, the content hash_000000000 becomes N0. -/
theorem C6_counterexample :
    pySub [("hash_00000000".data, "N".data)] "hash_000000000".data ≠
      "hash_000000000".data := by
  decide

/-- C6 (amended): only exact matches of the token grammar are ever
replaced — every matched token is hash_ followed by exactly eight
hexadecimal digits — and a content string containing no substring that
matches the grammar (too few digits, a non-hex character among the
eight, a prefix whose letters are not exactly lower-case hash_) is left
byte-for-byte unchanged.  However, when hash_ is followed by more than
eight hexadecimal digits, its first thirteen characters do form a match
and may be replaced. -/
theorem C6_malformed_never_matched :
    (∀ (content t : PyStr), Piece.tok t ∈ tokenize content →
      tokenAt t = true ∧ t.length = 13) ∧
    (∀ (tbl : List (PyStr × PyStr)) (content : PyStr),
      hasToken content = false → pySub tbl content = content) :=
  ⟨tokenize_tok_mem, fun tbl content h => pySub_no_token tbl content h⟩

theorem C6_malformed_never_matched_witness :
    pySub [("hash_0000FFFF".data, "X".data)]
        "hash_12345 hash_1g345678 Hash_12345678".data =
      "hash_12345 hash_1g345678 Hash_12345678".data :=
  C6_malformed_never_matched.2 [("hash_0000FFFF".data, "X".data)]
    "hash_12345 hash_1g345678 Hash_12345678".data (by decide)

/-- C10: on a content string containing no match of the token pattern
(an already fully substituted file), the substitution returns the
content unchanged and reports changed = false, so a second pass is a
no-op. -/
theorem C10_second_pass_noop :
    ∀ (tbl : List (PyStr × PyStr)) (content : PyStr),
      hasToken content = false → substApply tbl content = (content, false) := by
  intro tbl content h
  simp [substApply, pySub_no_token tbl content h]

theorem C10_second_pass_noop_witness :
    substApply [(joaat_hash "player_ped".data, "player_ped".data)]
        "<Item>player_ped</Item>".data =
      ("<Item>player_ped</Item>".data, false) :=
  C10_second_pass_noop [(joaat_hash "player_ped".data, "player_ped".data)]
    "<Item>player_ped</Item>".data (by decide)

theorem toHex8_not_lower (v : Nat) :
    ∀ c ∈ toHex8 v, ¬('a' ≤ c ∧ c ≤ 'f') := by
  have hone : ∀ d, d < 16 → ¬('a' ≤ hexUpper d ∧ hexUpper d ≤ 'f') := by
    decide
  have hmod : ∀ m : Nat, ¬('a' ≤ hexUpper (m % 16) ∧ hexUpper (m % 16) ≤ 'f') :=
    fun m => hone _ (Nat.mod_lt _ (by norm_num))
  intro c hc
  simp only [toHex8, List.mem_cons, List.not_mem_nil, or_false] at hc
  rcases hc with h | h | h | h | h | h | h | h <;>
    (subst h; exact hmod _)

theorem pyGet_eq_none (tbl : List (PyStr × PyStr)) (key : PyStr)
    (h : ∀ p ∈ tbl, p.1 ≠ key) : pyGet tbl key = none := by
  induction tbl with
  | nil => rfl
  | cons p rest ih =>
      obtain ⟨k, v⟩ := p
      simp only [pyGet]
      rw [ih (fun q hq => h q (List.mem_cons_of_mem _ hq))]
      simp [h (k, v) (List.mem_cons_self _ _)]

/-- C7: a token matching the pattern whose eight digits contain at
least one lower-case hexadecimal letter is never a key of any table
built by load_nametable — the hasher emits tokens whose digits are
upper-case only and the dict lookup compares tokens case-sensitively —
so the substitution keeps such a match verbatim even when its
upper-cased spelling is a key. -/
theorem C7_lowercase_digit_never_replaced :
    ∀ (lines : List PyStr) (ds : PyStr),
      tokenAt ("hash_".data ++ ds) = true →
      (∃ c ∈ ds, 'a' ≤ c ∧ c ≤ 'f') →
      pyGet (load_nametable lines) ("hash_".data ++ ds) = none ∧
      renderPiece (load_nametable lines) (Piece.tok ("hash_".data ++ ds)) =
        "hash_".data ++ ds := by
  intro lines ds _ hex
  obtain ⟨c, hcm, hcl⟩ := hex
  have hkey : pyGet (load_nametable lines) ("hash_".data ++ ds) = none := by
    apply pyGet_eq_none
    intro p hp
    simp only [load_nametable, List.mem_map] at hp
    obtain ⟨l, _, hpe⟩ := hp
    intro he
    rw [← hpe] at he
    simp only [joaat_hash] at he
    have hds : toHex8 (joaatFinish
        (((pyStrip l).map pyLower).foldl joaatStep 0)) = ds :=
      List.append_cancel_left he
    rw [← hds] at hcm
    exact toHex8_not_lower _ c hcm hcl
  refine ⟨hkey, ?_⟩
  show (pyGet (load_nametable lines) ("hash_".data ++ ds)).getD
      ("hash_".data ++ ds) = "hash_".data ++ ds
  rw [hkey]
  rfl

theorem C7_lowercase_digit_never_replaced_witness :
    pyGet (load_nametable ["Player".data]) ("hash_".data ++ "6f0783F5".data) =
        none ∧
      renderPiece (load_nametable ["Player".data])
          (Piece.tok ("hash_".data ++ "6f0783F5".data)) =
        "hash_".data ++ "6f0783F5".data :=
  C7_lowercase_digit_never_replaced ["Player".data] "6f0783F5".data
    (by decide) (by decide)

/-- C9: the per-file operation writes the file back exactly when the
substituted content differs from the content read; when the
substitution changes nothing the outcome is skipped and the on-disk
content stays byte-identical. -/
theorem C9_conditional_write :
    ∀ (tbl : List (PyStr × PyStr)) (content : PyStr),
      ((process_xml_file tbl (some content)).1 = Outcome.written ↔
        pySub tbl content ≠ content) ∧
      (pySub tbl content = content →
        process_xml_file tbl (some content) =
          (Outcome.skipped, some content)) := by
  intro tbl content
  by_cases h : pySub tbl content = content
  · constructor
    · simp [process_xml_file, h]
    · intro _
      simp [process_xml_file, h]
  · constructor
    · simp [process_xml_file, bne_iff_ne, h]
    · intro hc
      exact absurd hc h

theorem C9_conditional_write_witness :
    process_xml_file ([] : List (PyStr × PyStr)) (some "abc".data) =
      (Outcome.skipped, some "abc".data) :=
  (C9_conditional_write [] "abc".data).2 (by decide)

/-- C5 is contradicted by the code: the claimed isolation fails on the
cancellation path of `list(executor.map(...))`.  With three files whose
first read raises and a pool that had started only the first two tasks
when the failure was re-raised, the third file's future is cancelled by
the result iterator's cleanup: it is never processed and gets no
outcome, while the second file, already started, runs to completion.
By contrast, when no file fails, no exception reaches `list(...)`,
nothing is cancelled, and every file is processed regardless of
scheduling. -/
theorem C5_failure_cancels_pending :
    process_files [] [none, some "a".data, some "b".data] 2 =
        [some (Outcome.failed, none),
          some (Outcome.skipped, some "a".data),
          none] ∧
      (∀ (tbl : List (PyStr × PyStr)) (files : List (Option PyStr))
          (started : Nat),
        files.findIdx? (fun f => f.isNone) = none →
        process_files tbl files started =
          files.map (fun f => some (process_xml_file tbl f))) := by
  constructor
  · decide
  · intro tbl files started h
    simp [process_files, h]

theorem C5_failure_cancels_pending_witness :
    process_files [] [some "x".data] 0 =
      [some (process_xml_file [] (some "x".data))] :=
  C5_failure_cancels_pending.2 [] [some "x".data] 0 (by decide)

/-- C8: when reading or decoding the source list raises, the error
propagates out of load_nametable and the run aborts before any target
file is read or written — no per-file outcome is produced at all, so no
file is ever processed with a partial or empty table; when loading
succeeds, every file is processed with the fully built table. -/
theorem C8_fail_fast_on_load :
    (∀ (files : List (Option PyStr)) (started : Nat),
      runJenkDeHasher none files started = none) ∧
    (∀ (lines : List PyStr) (files : List (Option PyStr)) (started : Nat),
      runJenkDeHasher (some lines) files started =
        some (process_files (load_nametable lines) files started)) :=
  ⟨fun _ _ => rfl, fun _ _ _ => rfl⟩
